import Mathlib

/-!
Shallow embedding of the page and content managers of django-page-cms
(gerbi/managers.py): path-to-page resolution, versioned per-language
content storage with revision pruning, language fallback, and the
page-alias fallback resolver.

Database rows are modelled as lists of records; a store clock assigns a
fresh, strictly increasing creation timestamp to every created row, so in
a well-formed store creation dates are unique and double as row identity
(the row removed by c.delete() is the one with that creation date).
External collaborators that are not part of managers.py (the html5lib
sanitizer, the link filter, Page.get_complete_slug, normalize_url) are
modelled as arbitrary pure functions carried in the settings record.
-/

/-- Publication status of a page, as used by the managers
(self.model.DRAFT, PUBLISHED, HIDDEN). -/
inductive PageStatus
  | draft
  | published
  | hidden
  deriving DecidableEq, Repr

/-- One Content row: owning page id, language code, content type tag,
creation timestamp and body string. -/
structure Content where
  page : Nat
  language : String
  ctype : String
  creationDate : Nat
  body : String
  deriving DecidableEq, Repr

/-- The Content table together with the clock used to stamp new rows. -/
structure ContentStore where
  contents : List Content
  clock : Nat
  deriving DecidableEq, Repr

/-- One Page row: id, optional parent id, status, optional freeze date and
site membership. -/
structure Page where
  id : Nat
  parent : Option Nat
  status : PageStatus
  freezeDate : Option Nat
  sites : List Nat
  deriving DecidableEq, Repr

/-- The gerbi settings read by managers.py, together with the external
collaborator functions the managers call, modelled as arbitrary pure
functions: sanitize (html5lib sanitizer), filterLink (gerbi.utils
filter_link, taking body, page id, language and type), completeSlug
(Page.get_complete_slug, taking page id and language) and normalizeUrl
(gerbi.utils normalize_url). -/
structure Settings where
  useSiteId : Bool
  siteId : Nat
  useStrictUrl : Bool
  sanitizeUserInput : Bool
  revisionDepth : Nat
  defaultLanguage : String
  languages : List String
  sanitize : String → String
  filterLink : String → Nat → String → String → String
  completeSlug : Nat → String → String
  normalizeUrl : String → String

/-- The queryset self.filter(page=page, language=language, type=ctype). -/
def tupleContents (cs : List Content) (pid : Nat) (language ctype : String) : List Content :=
  cs.filter (fun c => c.page == pid && c.language == language && c.ctype == ctype)

/-- Insert a row into a list kept in descending creation-date order. -/
def insertDesc (c : Content) : List Content → List Content
  | [] => [c]
  | x :: xs => if x.creationDate ≤ c.creationDate then c :: x :: xs else x :: insertDesc c xs

/-- The queryset order_by(-creation_date): rows sorted by creation date,
newest first. -/
def sortDesc : List Content → List Content
  | [] => []
  | x :: xs => insertDesc x (sortDesc xs)

/-- The queryset method .latest(creation_date): the row with the maximal
creation date, or none when the queryset is empty (DoesNotExist). -/
def latestContent (cs : List Content) : Option Content :=
  (sortDesc cs).head?

/-- The common preamble of both content writers: sanitize the body when
GERBI_SANITIZE_USER_INPUT is set. -/
def sanitized (s : Settings) (body : String) : String :=
  if s.sanitizeUserInput then s.sanitize body else body

/-- The row inserted by createContent at the current clock. -/
def freshContent (st : ContentStore) (pid : Nat) (language ctype body : String) : Content :=
  { page := pid, language := language, ctype := ctype, creationDate := st.clock, body := body }

/-- The queryset method self.create(page=..., language=..., body=..., type=...):
a fresh row stamped with the store clock. -/
def createContent (st : ContentStore) (pid : Nat) (language ctype body : String) : Content × ContentStore :=
  (freshContent st pid language ctype body,
   { contents := freshContent st pid language ctype body :: st.contents, clock := st.clock + 1 })

namespace ContentManager

/-- The tail of create_content_if_changed after the body-unchanged early
return: self.create, then, when GERBI_CONTENT_REVISION_DEPTH is nonzero,
deletion of every row of the tuple queryset ordered by creation date
descending from index depth on. -/
def create_and_prune (s : Settings) (st : ContentStore) (pid : Nat) (language ctype body : String) : Content × ContentStore :=
  let r := createContent st pid language ctype body
  if s.revisionDepth ≠ 0 then
    let oldest := (sortDesc (tupleContents r.2.contents pid language ctype)).drop s.revisionDepth
    (r.1, { contents := r.2.contents.filter (fun x => !(oldest.any (fun d => d.creationDate == x.creationDate))),
            clock := r.2.clock })
  else r

/-- ContentManager.create_content_if_changed: sanitize, return the latest
row unchanged when its body equals the new body, otherwise create a new
row and prune old revisions. -/
def create_content_if_changed (s : Settings) (st : ContentStore) (pid : Nat) (language ctype body : String) : Content × ContentStore :=
  let body := sanitized s body
  match latestContent (tupleContents st.contents pid language ctype) with
  | some c =>
    if c.body = body then (c, st)
    else create_and_prune s st pid language ctype body
  | none => create_and_prune s st pid language ctype body

/-- ContentManager.set_or_create_content: sanitize, then overwrite the body
of the latest row of the tuple in place when one exists, else create a
fresh row. -/
def set_or_create_content (s : Settings) (st : ContentStore) (pid : Nat) (language ctype body : String) : Content × ContentStore :=
  let body := sanitized s body
  match latestContent (tupleContents st.contents pid language ctype) with
  | some c =>
    let c2 : Content := { c with body := body }
    (c2, { contents := st.contents.map (fun x => if x.creationDate == c.creationDate then c2 else x),
           clock := st.clock })
  | none => createContent st pid language ctype body

/-- ContentManager.get_content_object: the latest row for the tuple,
restricted to creation_date less than or equal to page.freeze_date when the
page is frozen; none models DoesNotExist. -/
def get_content_object (st : ContentStore) (page : Page) (language ctype : String) : Option Content :=
  let base := tupleContents st.contents page.id language ctype
  let base := match page.freezeDate with
    | some fd => base.filter (fun c => c.creationDate ≤ fd)
    | none => base
  latestContent base

/-- ContentManager.get_page_ids_by_slug: ids of every page having some
Content row of type slug whose body equals the given slug, deduplicated
(the values page_id plus annotate Max grouping). -/
def get_page_ids_by_slug (st : ContentStore) (slug : String) : List Nat :=
  ((st.contents.filter (fun c => c.ctype == "slug" && c.body == slug)).map (fun c => c.page)).dedup

/-- The per-page content dictionary: language code mapped to latest body,
empty string where no Content exists for that language. -/
abbrev ContentDict := List (String × String)

/-- Python dictionary read: content_dict[language] when language is a key. -/
def lookupLang (dict : ContentDict) (language : String) : Option String :=
  (dict.find? (fun p => p.1 == language)).map (fun p => p.2)

/-- The dictionary-filling loop of get_content: one get_content_object per
configured language, empty string on DoesNotExist. -/
def build_content_dict (s : Settings) (st : ContentStore) (page : Page) (ctype : String) : ContentDict :=
  s.languages.map (fun lang =>
    (lang,
      match get_content_object st page lang ctype with
      | some c => c.body
      | none => ""))

/-- The language-fallback loop of get_content: first configured language
whose dictionary entry is present and non-empty wins, run through
filter_link; empty string when none qualifies. -/
def fallback_body (s : Settings) (dict : ContentDict) (pid : Nat) (ctype : String) : List String → String
  | [] => ""
  | lang :: rest =>
    match lookupLang dict lang with
    | some b => if b ≠ "" then s.filterLink b pid lang ctype else fallback_body s dict pid ctype rest
    | none => fallback_body s dict pid ctype rest

/-- ContentManager.get_content. The request-scoped memo entry and the
shared cache entry for the key of this page, type and frozen flag are
passed explicitly (none models a miss); Python dictionary truthiness makes
an empty cached dictionary count as a miss as well. -/
def get_content (s : Settings) (st : ContentStore) (page : Page) (memo shared : Option ContentDict) (language ctype : String) (language_fallback : Bool) : String :=
  let language := if language = "" then s.defaultLanguage else language
  let d0 : Option ContentDict :=
    match memo with
    | some d => if d.isEmpty then shared else some d
    | none => shared
  let dict :=
    match d0 with
    | some d => if d.isEmpty then build_content_dict s st page ctype else d
    | none => build_content_dict s st page ctype
  match lookupLang dict language with
  | some b =>
    if b ≠ "" then s.filterLink b page.id language ctype
    else if language_fallback then fallback_body s dict page.id ctype s.languages else ""
  | none => if language_fallback then fallback_body s dict page.id ctype s.languages else ""

end ContentManager

namespace PageManager

/-- PageManager.on_site with its default site argument: restrict to pages
of the configured site when GERBI_USE_SITE_ID is set. -/
def on_site (s : Settings) (pages : List Page) : List Page :=
  if s.useSiteId then pages.filter (fun p => p.sites.contains s.siteId) else pages

/-- PageManager.root: pages on the site without parent. -/
def root (s : Settings) (pages : List Page) : List Page :=
  (on_site s pages).filter (fun p => p.parent.isNone)

/-- Helper of get_slug: accumulate the current segment, restarting at every
slash. -/
def get_slug_aux : List Char → List Char → List Char
  | [], acc => acc.reverse
  | c :: cs, acc => if c = '/' then get_slug_aux cs [] else get_slug_aux cs (c :: acc)

/-- Modelled from the spec: gerbi.http.get_slug is not under src; per the
spec the slug-extraction collaborator takes a full path and returns the
last path segment as the candidate slug. -/
def get_slug (path : String) : String :=
  String.mk (get_slug_aux path.toList [])

/-- The path normalization at the top of PageManager.from_path: strip one
trailing slash, then one leading slash. -/
def strip_path (path : String) : String :=
  let p := if path.toList.getLastD ' ' == '/' then path.dropRight 1 else path
  if p.toList.headD ' ' == '/' then p.drop 1 else p

/-- The candidate queryset of PageManager.from_path: pages on the site
whose id carries the slug of the final path segment, drafts optionally
excluded. -/
def candidates (s : Settings) (pages : List Page) (st : ContentStore) (cp : String) (exclude_drafts : Bool) : List Page :=
  let slug := get_slug cp
  let page_ids := ContentManager.get_page_ids_by_slug st slug
  let l := (on_site s pages).filter (fun p => page_ids.contains p.id)
  if exclude_drafts then l.filter (fun p => !(p.status == PageStatus.draft)) else l

/-- PageManager.from_path: root page on empty path; exactly one candidate
is accepted directly, except that strict-URL mode requires its complete
slug to equal the stripped path; with several candidates the first one
whose complete slug equals the stripped path wins; otherwise none. -/
def from_path (s : Settings) (pages : List Page) (st : ContentStore) (complete_path lang : String) (exclude_drafts : Bool) : Option Page :=
  let cp := strip_path complete_path
  if cp = "" then (root s pages).head?
  else
    match candidates s pages st cp exclude_drafts with
    | [] => none
    | [p] =>
      if s.useStrictUrl && !(s.completeSlug p.id lang == cp) then none else some p
    | p :: q :: rest => (p :: q :: rest).find? (fun r => s.completeSlug r.id lang == cp)

end PageManager

/-- One PageAlias row: aliased url (possibly carrying a query string) and
target page id. The alias table keeps urls unique. -/
structure PageAlias where
  url : String
  pageId : Nat
  deriving DecidableEq, Repr

namespace PageAliasManager

/-- PageAlias.objects.get(url=url) under the uniqueness invariant on urls:
the first, hence only, alias with the given url; none models DoesNotExist. -/
def alias_get (aliases : List PageAlias) (url : String) : Option PageAlias :=
  aliases.find? (fun a => a.url == url)

/-- PageAliasManager.from_path: normalize the path, first try the url with
the query string appended after a question mark (when the query string is
non-empty), then the normalized path alone, else none. -/
def from_path (s : Settings) (aliases : List PageAlias) (path query_string : String) : Option PageAlias :=
  let url := s.normalizeUrl path
  let url := if query_string ≠ "" then url ++ "?" ++ query_string else url
  match alias_get aliases url with
  | some a => some a
  | none =>
    match alias_get aliases (s.normalizeUrl path) with
    | some a => some a
    | none => none

end PageAliasManager

/-- Well-formedness maintained by the store operations: rows are kept
newest first with strictly decreasing (hence distinct) creation dates, and
every date is below the clock. -/
abbrev ContentStore.WF (st : ContentStore) : Prop :=
  st.contents.Pairwise (fun a b => b.creationDate < a.creationDate) ∧
  ∀ c ∈ st.contents, c.creationDate < st.clock

/-- Fixture settings for concrete evaluations: no site scoping, strict mode
off, sanitizing off, revision depth one, identity collaborators. -/
def S0 : Settings :=
  { useSiteId := false, siteId := 1, useStrictUrl := false, sanitizeUserInput := false,
    revisionDepth := 1, defaultLanguage := "en", languages := ["en", "fr"],
    sanitize := fun b => b, filterLink := fun b _ _ _ => b,
    completeSlug := fun _ _ => "", normalizeUrl := fun u => u }

/-- Fixture settings with strict-URL mode on and a concrete complete-slug
function distinguishing pages one and two. -/
def S1 : Settings :=
  { S0 with
    useStrictUrl := true
    completeSlug := fun pid _ => if pid = 2 then "c/b" else "a/b" }

/-- Fixture store holding three revisions of one tuple. -/
def ST0 : ContentStore :=
  { contents :=
      [{ page := 1, language := "en", ctype := "body", creationDate := 2, body := "X" },
       { page := 1, language := "en", ctype := "body", creationDate := 1, body := "Y" },
       { page := 1, language := "en", ctype := "body", creationDate := 0, body := "Z" }],
    clock := 3 }

/-- Fixture store with an empty table. -/
def ST1 : ContentStore := { contents := [], clock := 0 }

/-- Fixture store holding a single revision. -/
def ST2 : ContentStore :=
  { contents :=
      [{ page := 1, language := "en", ctype := "body", creationDate := 0, body := "old" }],
    clock := 1 }

/-- Fixture store with slug rows for two pages sharing the slug b. -/
def STP : ContentStore :=
  { contents :=
      [{ page := 2, language := "en", ctype := "slug", creationDate := 1, body := "b" },
       { page := 1, language := "en", ctype := "slug", creationDate := 0, body := "b" }],
    clock := 2 }

/-- Fixture store with a slug row for page one only. -/
def STP1 : ContentStore :=
  { contents :=
      [{ page := 1, language := "en", ctype := "slug", creationDate := 0, body := "b" }],
    clock := 1 }

/-- Fixture store with one french body row and no english one. -/
def STC : ContentStore :=
  { contents :=
      [{ page := 1, language := "fr", ctype := "body", creationDate := 0, body := "bonjour" }],
    clock := 1 }

/-- Fixture page one, a root page on site one. -/
def P1page : Page :=
  { id := 1, parent := none, status := PageStatus.published, freezeDate := none, sites := [1] }

/-- Fixture page two, a root page on site one. -/
def P2page : Page :=
  { id := 2, parent := none, status := PageStatus.published, freezeDate := none, sites := [1] }

/-- Fixture page frozen at time one. -/
def PF : Page :=
  { id := 1, parent := none, status := PageStatus.published, freezeDate := some 1, sites := [1] }

/-- Fixture page list with one page. -/
def PG1 : List Page := [P1page]

/-- Fixture page list with two pages. -/
def PG2 : List Page := [P1page, P2page]

/-- Fixture alias table with a query-qualified and a plain entry. -/
def AL : List PageAlias :=
  [{ url := "foo?x=1", pageId := 10 }, { url := "foo", pageId := 20 }]


theorem insertDesc_perm (c : Content) (l : List Content) :
    List.Perm (insertDesc c l) (c :: l) := by
  induction l with
  | nil => exact List.Perm.refl _
  | cons x xs ih =>
    by_cases h : x.creationDate ≤ c.creationDate
    · simp [insertDesc, h]
    · simp only [insertDesc, if_neg h]
      exact (ih.cons x).trans (List.Perm.swap c x xs)

theorem sortDesc_perm (l : List Content) : List.Perm (sortDesc l) l := by
  induction l with
  | nil => exact List.Perm.refl _
  | cons x xs ih =>
    exact (insertDesc_perm x (sortDesc xs)).trans (ih.cons x)

theorem insertDesc_cons_of_le (c x : Content) (xs : List Content)
    (h : x.creationDate ≤ c.creationDate) : insertDesc c (x :: xs) = c :: x :: xs := by
  simp [insertDesc, h]

theorem sortDesc_eq_self (l : List Content)
    (h : l.Pairwise (fun a b => b.creationDate < a.creationDate)) : sortDesc l = l := by
  induction l with
  | nil => rfl
  | cons x xs ih =>
    have hx := (List.pairwise_cons.mp h).1
    have htl := (List.pairwise_cons.mp h).2
    simp only [sortDesc, ih htl]
    cases xs with
    | nil => rfl
    | cons y ys =>
      exact insertDesc_cons_of_le x y ys (le_of_lt (hx y (List.mem_cons_self y ys)))

theorem latestContent_eq_head (l : List Content)
    (h : l.Pairwise (fun a b => b.creationDate < a.creationDate)) :
    latestContent l = l.head? := by
  simp [latestContent, sortDesc_eq_self l h]

theorem tupleContents_filter (cs : List Content) (pred : Content → Bool)
    (pid : Nat) (language ctype : String) :
    tupleContents (cs.filter pred) pid language ctype =
      (tupleContents cs pid language ctype).filter pred := by
  simp only [tupleContents, List.filter_filter]
  exact List.filter_congr (fun x _ => Bool.and_comm _ _)

theorem tupleContents_cons_self (cs : List Content) (pid : Nat)
    (language ctype : String) (c : Content)
    (hc : c.page = pid) (hl : c.language = language) (ht : c.ctype = ctype) :
    tupleContents (c :: cs) pid language ctype = c :: tupleContents cs pid language ctype := by
  simp [tupleContents, List.filter_cons, hc, hl, ht]

theorem tupleContents_cons_of_ne (cs : List Content) (pid : Nat)
    (language ctype : String) (c : Content)
    (hc : ¬(c.page = pid ∧ c.language = language ∧ c.ctype = ctype)) :
    tupleContents (c :: cs) pid language ctype = tupleContents cs pid language ctype := by
  have : (c.page == pid && (c.language == language && c.ctype == ctype)) = false := by
    rcases Decidable.em (c.page = pid) with h1 | h1
    · rcases Decidable.em (c.language = language) with h2 | h2
      · rcases Decidable.em (c.ctype = ctype) with h3 | h3
        · exact absurd ⟨h1, h2, h3⟩ hc
        · simp [h3]
      · simp [h2]
    · simp [h1]
  simp only [tupleContents, List.filter_cons]
  simp [Bool.and_assoc] at this ⊢
  intro h1 h2 h3
  exact absurd ⟨h1, h2, h3⟩ hc

theorem tupleContents_sublist (cs : List Content) (pid : Nat) (language ctype : String) :
    (tupleContents cs pid language ctype).Sublist cs :=
  List.filter_sublist cs

theorem tupleContents_pairwise (cs : List Content) (pid : Nat) (language ctype : String)
    (h : cs.Pairwise (fun a b => b.creationDate < a.creationDate)) :
    (tupleContents cs pid language ctype).Pairwise
      (fun a b => b.creationDate < a.creationDate) :=
  h.filter _

theorem filter_drop_take (K : Nat) (l : List Content)
    (h : l.Pairwise (fun a b => b.creationDate < a.creationDate)) :
    l.filter (fun x => !((l.drop K).any (fun d => d.creationDate == x.creationDate))) =
      l.take K := by
  induction K generalizing l with
  | zero =>
    simp only [List.drop_zero, List.take_zero]
    rw [List.filter_eq_nil_iff]
    intro a ha
    simp only [Bool.not_eq_true', Bool.not_eq_false]
    exact List.any_eq_true.mpr ⟨a, ha, by simp⟩
  | succ K ih =>
    cases l with
    | nil => rfl
    | cons x xs =>
      have hx := (List.pairwise_cons.mp h).1
      have htl := (List.pairwise_cons.mp h).2
      simp only [List.drop_succ_cons, List.filter_cons]
      have hkeep : (!((xs.drop K).any (fun d => d.creationDate == x.creationDate))) = true := by
        simp only [Bool.not_eq_true', List.any_eq_false]
        intro d hd
        have : d.creationDate < x.creationDate := hx d (List.mem_of_mem_drop hd)
        simp [Nat.ne_of_lt this]
      rw [if_pos hkeep, ih xs htl, List.take_succ_cons]

theorem WF_cons_clock (st : ContentStore) (hwf : st.WF) (c : Content)
    (hd : c.creationDate = st.clock) :
    ContentStore.WF { contents := c :: st.contents, clock := st.clock + 1 } := by
  constructor
  · rw [List.pairwise_cons]
    exact ⟨fun y hy => by rw [hd]; exact hwf.2 y hy, hwf.1⟩
  · intro x hx
    rcases List.mem_cons.mp hx with h | h
    · rw [h, hd]; exact Nat.lt_succ_self _
    · exact Nat.lt_succ_of_lt (hwf.2 x h)

theorem WF_filter (st : ContentStore) (hwf : st.WF) (p : Content → Bool) :
    ContentStore.WF { contents := st.contents.filter p, clock := st.clock } := by
  constructor
  · exact hwf.1.filter p
  · intro x hx
    exact hwf.2 x (List.mem_of_mem_filter hx)

theorem create_and_prune_spec (s : Settings) (st : ContentStore) (pid : Nat)
    (language ctype body : String) (hwf : st.WF) :
    (ContentManager.create_and_prune s st pid language ctype body).1 =
        freshContent st pid language ctype body ∧
    (ContentManager.create_and_prune s st pid language ctype body).2.clock = st.clock + 1 ∧
    (ContentManager.create_and_prune s st pid language ctype body).2.WF ∧
    tupleContents (ContentManager.create_and_prune s st pid language ctype body).2.contents
        pid language ctype =
      (if s.revisionDepth = 0 then
        freshContent st pid language ctype body :: tupleContents st.contents pid language ctype
       else (freshContent st pid language ctype body ::
              tupleContents st.contents pid language ctype).take s.revisionDepth) ∧
    (∃ rest, (ContentManager.create_and_prune s st pid language ctype body).2.contents =
        freshContent st pid language ctype body :: rest ∧ rest.Sublist st.contents) := by
  have hcons : tupleContents (freshContent st pid language ctype body :: st.contents)
      pid language ctype =
      freshContent st pid language ctype body :: tupleContents st.contents pid language ctype :=
    tupleContents_cons_self _ _ _ _ _ rfl rfl rfl
  have hpw : (freshContent st pid language ctype body :: st.contents).Pairwise
      (fun a b => b.creationDate < a.creationDate) := by
    rw [List.pairwise_cons]
    exact ⟨fun y hy => hwf.2 y hy, hwf.1⟩
  have hpwt : (freshContent st pid language ctype body ::
      tupleContents st.contents pid language ctype).Pairwise
      (fun a b => b.creationDate < a.creationDate) := by
    have := tupleContents_pairwise _ pid language ctype hpw
    rwa [hcons] at this
  have hsorted : sortDesc (freshContent st pid language ctype body ::
      tupleContents st.contents pid language ctype) =
      freshContent st pid language ctype body :: tupleContents st.contents pid language ctype :=
    sortDesc_eq_self _ hpwt
  by_cases hK : s.revisionDepth = 0
  · have hif : ContentManager.create_and_prune s st pid language ctype body =
        (freshContent st pid language ctype body,
         { contents := freshContent st pid language ctype body :: st.contents,
           clock := st.clock + 1 }) := by
      simp [ContentManager.create_and_prune, createContent, hK]
    rw [hif]
    refine ⟨rfl, rfl, WF_cons_clock st hwf _ rfl, ?_, st.contents, rfl, List.Sublist.refl _⟩
    rw [if_pos hK]
    exact hcons
  · have hif : ContentManager.create_and_prune s st pid language ctype body =
        (freshContent st pid language ctype body,
         { contents := (freshContent st pid language ctype body :: st.contents).filter
             (fun x => !(((freshContent st pid language ctype body ::
                 tupleContents st.contents pid language ctype).drop s.revisionDepth).any
                 (fun d => d.creationDate == x.creationDate))),
           clock := st.clock + 1 }) := by
      simp only [ContentManager.create_and_prune, createContent, ne_eq, hK, not_false_eq_true,
        if_true]
      rw [hcons, hsorted]
    obtain ⟨K, hKeq⟩ := Nat.exists_eq_succ_of_ne_zero hK
    have hwf1 : ContentStore.WF
        { contents := (freshContent st pid language ctype body :: st.contents),
          clock := st.clock + 1 } :=
      WF_cons_clock st hwf _ rfl
    have hkeepNew : (!(((freshContent st pid language ctype body ::
        tupleContents st.contents pid language ctype).drop s.revisionDepth).any
        (fun d => d.creationDate == (freshContent st pid language ctype body).creationDate)))
        = true := by
      simp only [hKeq, List.drop_succ_cons, Bool.not_eq_true', List.any_eq_false]
      intro d hd
      have hmem : d ∈ st.contents :=
        List.Sublist.mem (List.mem_of_mem_drop hd)
          (tupleContents_sublist st.contents pid language ctype)
      have hlt : d.creationDate < st.clock := hwf.2 d hmem
      simp [freshContent, Nat.ne_of_lt hlt]
    rw [hif]
    refine ⟨rfl, rfl, WF_filter _ hwf1 _, ?_, ?_⟩
    · rw [tupleContents_filter, hcons, if_neg hK]
      exact filter_drop_take s.revisionDepth _ hpwt
    · refine ⟨st.contents.filter
        (fun x => !(((freshContent st pid language ctype body ::
            tupleContents st.contents pid language ctype).drop s.revisionDepth).any
            (fun d => d.creationDate == x.creationDate))), ?_, List.filter_sublist _⟩
      rw [List.filter_cons, if_pos hkeepNew]

theorem create_if_changed_eq_prune (s : Settings) (st : ContentStore) (pid : Nat)
    (language ctype body : String)
    (hne : ∀ c, latestContent (tupleContents st.contents pid language ctype) = some c →
      c.body ≠ sanitized s body) :
    ContentManager.create_content_if_changed s st pid language ctype body =
      ContentManager.create_and_prune s st pid language ctype (sanitized s body) := by
  simp only [ContentManager.create_content_if_changed]
  cases h : latestContent (tupleContents st.contents pid language ctype) with
  | none => rfl
  | some c => exact if_neg (hne c h)

theorem create_if_changed_noop (s : Settings) (st : ContentStore) (pid : Nat)
    (language ctype body : String) (c : Content)
    (h : latestContent (tupleContents st.contents pid language ctype) = some c)
    (hb : c.body = sanitized s body) :
    ContentManager.create_content_if_changed s st pid language ctype body = (c, st) := by
  simp only [ContentManager.create_content_if_changed]
  rw [h]
  exact if_pos hb

theorem latest_after_create (s : Settings) (st : ContentStore) (pid : Nat)
    (language ctype body : String) (hwf : st.WF)
    (hne : ∀ c, latestContent (tupleContents st.contents pid language ctype) = some c →
      c.body ≠ sanitized s body) :
    latestContent (tupleContents
        (ContentManager.create_content_if_changed s st pid language ctype body).2.contents
        pid language ctype) =
      some (freshContent st pid language ctype (sanitized s body)) := by
  rw [create_if_changed_eq_prune s st pid language ctype body hne]
  obtain ⟨h1, h2, hwf2, htc, hrest⟩ :=
    create_and_prune_spec s st pid language ctype (sanitized s body) hwf
  rw [latestContent_eq_head _ (tupleContents_pairwise _ _ _ _ hwf2.1), htc]
  by_cases hK : s.revisionDepth = 0
  · rw [if_pos hK]; rfl
  · rw [if_neg hK]
    obtain ⟨K, hKeq⟩ := Nat.exists_eq_succ_of_ne_zero hK
    rw [hKeq, List.take_succ_cons]
    rfl

theorem any_self_date (l : List Content) (c : Content) (h : c ∈ l) :
    (l.any (fun d => d.creationDate == c.creationDate)) = true :=
  List.any_eq_true.mpr ⟨c, h, by simp⟩

/-- The rows of the second store that are not rows of the first store,
rows being identified by their creation date. -/
def newRecords (old upd : ContentStore) : List Content :=
  upd.contents.filter (fun c => !(old.contents.any (fun d => d.creationDate == c.creationDate)))

theorem newRecords_after_create (s : Settings) (st : ContentStore) (pid : Nat)
    (language ctype body : String) (hwf : st.WF)
    (hne : ∀ c, latestContent (tupleContents st.contents pid language ctype) = some c →
      c.body ≠ sanitized s body) :
    newRecords st (ContentManager.create_content_if_changed s st pid language ctype body).2 =
      [freshContent st pid language ctype (sanitized s body)] := by
  rw [create_if_changed_eq_prune s st pid language ctype body hne]
  obtain ⟨h1, h2, hwf2, htc, rest, hcont, hsub⟩ :=
    create_and_prune_spec s st pid language ctype (sanitized s body) hwf
  rw [newRecords, hcont, List.filter_cons]
  have hfresh : (!(st.contents.any (fun d =>
      d.creationDate == (freshContent st pid language ctype (sanitized s body)).creationDate)))
      = true := by
    simp only [Bool.not_eq_true', List.any_eq_false]
    intro d hd
    have hlt : d.creationDate < st.clock := hwf.2 d hd
    simp [freshContent, Nat.ne_of_lt hlt]
  rw [if_pos hfresh]
  have hnil : rest.filter (fun c =>
      !(st.contents.any (fun d => d.creationDate == c.creationDate))) = [] := by
    rw [List.filter_eq_nil_iff]
    intro a ha
    simp only [Bool.not_eq_true', Bool.not_eq_false]
    exact any_self_date st.contents a (hsub.subset ha)
  rw [hnil]

/-- A sequence of create_content_if_changed calls on one tuple, one call
per listed body, oldest first. -/
def applyBodies (s : Settings) (pid : Nat) (language ctype : String) :
    ContentStore → List String → ContentStore
  | st, [] => st
  | st, b :: bs => applyBodies s pid language ctype
      (ContentManager.create_content_if_changed s st pid language ctype b).2 bs

theorem applyBodies_length (s : Settings) (pid : Nat) (language ctype : String)
    (hK : s.revisionDepth ≠ 0) :
    ∀ (bodies : List String) (st : ContentStore), st.WF →
    (tupleContents st.contents pid language ctype).length ≤ s.revisionDepth →
    List.Chain' (fun a b => a ≠ b)
      (((latestContent (tupleContents st.contents pid language ctype)).map Content.body).toList
        ++ bodies.map (sanitized s)) →
    (tupleContents (applyBodies s pid language ctype st bodies).contents pid language ctype).length
      = min ((tupleContents st.contents pid language ctype).length + bodies.length)
          s.revisionDepth := by
  intro bodies
  induction bodies with
  | nil =>
    intro st hwf hlen _
    simp only [applyBodies, List.length_nil, Nat.add_zero]
    omega
  | cons b bs ih =>
    intro st hwf hlen hchain
    have hsplit : (∀ c, latestContent (tupleContents st.contents pid language ctype) = some c →
          c.body ≠ sanitized s b) ∧
        List.Chain' (fun a b => a ≠ b) (sanitized s b :: bs.map (sanitized s)) := by
      cases hlat : latestContent (tupleContents st.contents pid language ctype) with
      | none =>
        rw [hlat] at hchain
        simp only [Option.map_none', Option.toList_none, List.nil_append, List.map_cons]
          at hchain
        refine ⟨fun c hc => ?_, hchain⟩
        exact Option.noConfusion hc
      | some c =>
        rw [hlat] at hchain
        simp only [Option.map_some', Option.toList_some, List.singleton_append, List.map_cons]
          at hchain
        rw [List.chain'_cons] at hchain
        refine ⟨fun c2 hc2 => ?_, hchain.2⟩
        injection hc2 with h
        rw [← h]
        exact hchain.1
    obtain ⟨hne, hchain2⟩ := hsplit
    have heq := create_if_changed_eq_prune s st pid language ctype b hne
    obtain ⟨h1, h2, hwf2, htc, hrest⟩ :=
      create_and_prune_spec s st pid language ctype (sanitized s b) hwf
    have hwf1 : (ContentManager.create_content_if_changed s st pid language ctype b).2.WF := by
      rw [heq]; exact hwf2
    have htc1 : tupleContents
        (ContentManager.create_content_if_changed s st pid language ctype b).2.contents
        pid language ctype =
        (freshContent st pid language ctype (sanitized s b) ::
          tupleContents st.contents pid language ctype).take s.revisionDepth := by
      rw [heq, htc, if_neg hK]
    have hlen1 : (tupleContents
        (ContentManager.create_content_if_changed s st pid language ctype b).2.contents
        pid language ctype).length =
        min ((tupleContents st.contents pid language ctype).length + 1) s.revisionDepth := by
      rw [htc1, List.length_take, List.length_cons]
      omega
    have hlat1 := latest_after_create s st pid language ctype b hwf hne
    have hchain1 : List.Chain' (fun a b => a ≠ b)
        (((latestContent (tupleContents
            (ContentManager.create_content_if_changed s st pid language ctype b).2.contents
            pid language ctype)).map Content.body).toList ++ bs.map (sanitized s)) := by
      rw [hlat1]
      simpa using hchain2
    have := ih (ContentManager.create_content_if_changed s st pid language ctype b).2
      hwf1 (by omega) hchain1
    simp only [applyBodies] at this ⊢
    rw [this, hlen1]
    simp only [List.length_cons]
    omega

theorem date_inj (cs : List Content)
    (h : cs.Pairwise (fun a b => b.creationDate < a.creationDate)) :
    ∀ x ∈ cs, ∀ y ∈ cs, x.creationDate = y.creationDate → x = y := by
  induction cs with
  | nil => intro x hx; cases hx
  | cons a l ih =>
    intro x hx y hy hxy
    rcases List.mem_cons.mp hx with hx1 | hx2
    · rcases List.mem_cons.mp hy with hy1 | hy2
      · rw [hx1, hy1]
      · have hlt := (List.pairwise_cons.mp h).1 y hy2
        rw [hx1] at hxy
        omega
    · rcases List.mem_cons.mp hy with hy1 | hy2
      · have hlt := (List.pairwise_cons.mp h).1 x hx2
        rw [hy1] at hxy
        omega
      · exact ih (List.pairwise_cons.mp h).2 x hx2 y hy2 hxy

theorem latestContent_none_iff (l : List Content) : latestContent l = none ↔ l = [] := by
  rw [latestContent, List.head?_eq_none_iff]
  constructor
  · intro h
    have hlen := (sortDesc_perm l).length_eq
    rw [h] at hlen
    exact List.length_eq_zero.mp hlen.symm
  · intro h
    rw [h]
    rfl

theorem latestContent_mem_max (l : List Content)
    (h : l.Pairwise (fun a b => b.creationDate < a.creationDate)) (c : Content)
    (hc : latestContent l = some c) :
    c ∈ l ∧ ∀ d ∈ l, d.creationDate ≤ c.creationDate := by
  rw [latestContent_eq_head l h] at hc
  cases l with
  | nil => cases hc
  | cons a t =>
    injection hc with h1
    constructor
    · rw [← h1]
      exact List.mem_cons_self _ _
    · intro d hd
      rcases List.mem_cons.mp hd with hd1 | hd2
      · rw [hd1, ← h1]
      · rw [← h1]
        exact le_of_lt ((List.pairwise_cons.mp h).1 d hd2)

theorem set_or_create_existing (s : Settings) (st : ContentStore) (pid : Nat)
    (language ctype body : String) (c : Content) (rest : List Content) (hwf : st.WF)
    (htc : tupleContents st.contents pid language ctype = c :: rest) :
    (ContentManager.set_or_create_content s st pid language ctype body).1 =
      { c with body := sanitized s body } ∧
    (ContentManager.set_or_create_content s st pid language ctype body).2.contents.length =
      st.contents.length ∧
    tupleContents (ContentManager.set_or_create_content s st pid language ctype body).2.contents
        pid language ctype = { c with body := sanitized s body } :: rest ∧
    (ContentManager.set_or_create_content s st pid language ctype body).2.clock = st.clock := by
  have hpwt := tupleContents_pairwise st.contents pid language ctype hwf.1
  have hlat : latestContent (tupleContents st.contents pid language ctype) = some c := by
    rw [latestContent_eq_head _ hpwt, htc]
    rfl
  have hcmem : c ∈ st.contents :=
    (tupleContents_sublist st.contents pid language ctype).subset
      (htc ▸ List.mem_cons_self c rest)
  have hif : ContentManager.set_or_create_content s st pid language ctype body =
      ({ c with body := sanitized s body },
       { contents := st.contents.map (fun x => if x.creationDate == c.creationDate
            then { c with body := sanitized s body } else x),
         clock := st.clock }) := by
    simp only [ContentManager.set_or_create_content]
    rw [hlat]
  rw [hif]
  refine ⟨rfl, by simp, ?_, rfl⟩
  have hfm : tupleContents (st.contents.map (fun x => if x.creationDate == c.creationDate
        then { c with body := sanitized s body } else x)) pid language ctype
      = (tupleContents st.contents pid language ctype).map
          (fun x => if x.creationDate == c.creationDate
            then { c with body := sanitized s body } else x) := by
    rw [tupleContents, List.filter_map, tupleContents]
    congr 1
    apply List.filter_congr
    intro x hx
    by_cases hd : x.creationDate = c.creationDate
    · have hxc : x = c := date_inj st.contents hwf.1 x hx c hcmem hd
      rw [hxc]
      simp [Function.comp]
    · simp [Function.comp, hd]
  rw [hfm, htc, List.map_cons]
  have hc2 : (if c.creationDate == c.creationDate then { c with body := sanitized s body } else c)
      = { c with body := sanitized s body } := by simp
  rw [hc2]
  congr 1
  have hid : ∀ x ∈ rest, (if x.creationDate == c.creationDate
      then { c with body := sanitized s body } else x) = x := by
    intro x hx
    have hlt : x.creationDate < c.creationDate := by
      rw [htc] at hpwt
      exact (List.pairwise_cons.mp hpwt).1 x hx
    simp [Nat.ne_of_lt hlt]
  conv_rhs => rw [← List.map_id rest]
  exact List.map_congr_left hid

theorem set_or_create_fresh (s : Settings) (st : ContentStore) (pid : Nat)
    (language ctype body : String)
    (htc : tupleContents st.contents pid language ctype = []) :
    ContentManager.set_or_create_content s st pid language ctype body =
      (freshContent st pid language ctype (sanitized s body),
       { contents := freshContent st pid language ctype (sanitized s body) :: st.contents,
         clock := st.clock + 1 }) ∧
    tupleContents (ContentManager.set_or_create_content s st pid language ctype body).2.contents
        pid language ctype = [freshContent st pid language ctype (sanitized s body)] := by
  have hlat : latestContent (tupleContents st.contents pid language ctype) = none := by
    rw [latestContent_none_iff]
    exact htc
  have hif : ContentManager.set_or_create_content s st pid language ctype body =
      (freshContent st pid language ctype (sanitized s body),
       { contents := freshContent st pid language ctype (sanitized s body) :: st.contents,
         clock := st.clock + 1 }) := by
    simp only [ContentManager.set_or_create_content]
    rw [hlat]
    rfl
  refine ⟨hif, ?_⟩
  rw [hif]
  show tupleContents (freshContent st pid language ctype (sanitized s body) :: st.contents)
      pid language ctype = [freshContent st pid language ctype (sanitized s body)]
  have hcons : tupleContents (freshContent st pid language ctype (sanitized s body) :: st.contents)
      pid language ctype =
      freshContent st pid language ctype (sanitized s body) ::
        tupleContents st.contents pid language ctype :=
    tupleContents_cons_self _ _ _ _ _ rfl rfl rfl
  rw [hcons, htc]

theorem fallback_body_of_all_empty (s : Settings) (dict : ContentManager.ContentDict)
    (pid : Nat) (ctype : String) :
    ∀ langs, (∀ l ∈ langs, (ContentManager.lookupLang dict l).getD "" = "") →
    ContentManager.fallback_body s dict pid ctype langs = "" := by
  intro langs
  induction langs with
  | nil => intro _; rfl
  | cons x xs ih =>
    intro h
    simp only [ContentManager.fallback_body]
    cases hx : ContentManager.lookupLang dict x with
    | none => exact ih (fun l hl => h l (List.mem_cons_of_mem x hl))
    | some b =>
      have hb : b = "" := by
        have := h x (List.mem_cons_self x xs)
        rw [hx] at this
        simpa using this
      rw [hb]
      simp only [ne_eq, not_true_eq_false, if_false]
      exact ih (fun l hl => h l (List.mem_cons_of_mem x hl))

theorem fallback_body_of_find (s : Settings) (dict : ContentManager.ContentDict)
    (pid : Nat) (ctype : String) :
    ∀ langs l,
    langs.find? (fun l2 => !((ContentManager.lookupLang dict l2).getD "" == "")) = some l →
    ContentManager.fallback_body s dict pid ctype langs =
      s.filterLink ((ContentManager.lookupLang dict l).getD "") pid l ctype := by
  intro langs
  induction langs with
  | nil => intro l h; cases h
  | cons x xs ih =>
    intro l h
    by_cases hp : (!((ContentManager.lookupLang dict x).getD "" == "")) = true
    · rw [@List.find?_cons_of_pos String
          (fun l2 => !((ContentManager.lookupLang dict l2).getD "" == "")) x xs hp] at h
      injection h with h2
      rw [← h2]
      simp only [ContentManager.fallback_body]
      cases hx : ContentManager.lookupLang dict x with
      | none =>
        rw [hx] at hp
        simp at hp
      | some b =>
        have hb : b ≠ "" := by
          rw [hx] at hp
          simpa using hp
        simp [hb]
    · rw [@List.find?_cons_of_neg String
          (fun l2 => !((ContentManager.lookupLang dict l2).getD "" == "")) x xs hp] at h
      have hrec := ih l h
      simp only [ContentManager.fallback_body]
      cases hx : ContentManager.lookupLang dict x with
      | none => exact hrec
      | some b =>
        have hb : b = "" := by
          rw [hx] at hp
          simpa using hp
        rw [hb]
        simp only [ne_eq, not_true_eq_false, if_false]
        exact hrec

/-- C10: when create_content_if_changed finds the latest stored body of the
tuple byte-identical to the sanitized new body, it returns that row before
the pruning step, so the content store is left completely unchanged: no row
is created and no old revision is deleted, whatever the configured revision
depth and however many revisions already exist. -/
theorem claim_C10_unchanged_noop (s : Settings) (st : ContentStore) (pid : Nat)
    (language ctype body : String) (c : Content)
    (h : latestContent (tupleContents st.contents pid language ctype) = some c)
    (hb : c.body = sanitized s body) :
    ContentManager.create_content_if_changed s st pid language ctype body = (c, st) :=
  create_if_changed_noop s st pid language ctype body c h hb

/-- Witness for C10 at a store of three revisions with revision depth one:
the no-op call leaves all three revisions in place. -/
theorem claim_C10_witness :
    ContentManager.create_content_if_changed S0 ST0 1 "en" "body" "X" =
      ({ page := 1, language := "en", ctype := "body", creationDate := 2, body := "X" }, ST0) :=
  claim_C10_unchanged_noop S0 ST0 1 "en" "body" "X"
    { page := 1, language := "en", ctype := "body", creationDate := 2, body := "X" }
    (by decide) (by decide)

/-- C3: two immediately successive create_content_if_changed calls with the
same body create exactly one new revision in total, not two: the second
call returns the first call result and leaves the store untouched, and when
the first call actually creates, the rows added across both calls are
exactly the one fresh row. -/
theorem claim_C3_idempotent (s : Settings) (st : ContentStore) (pid : Nat)
    (language ctype body : String) (hwf : st.WF) :
    ContentManager.create_content_if_changed s
        (ContentManager.create_content_if_changed s st pid language ctype body).2
        pid language ctype body =
      ContentManager.create_content_if_changed s st pid language ctype body ∧
    ((∀ c, latestContent (tupleContents st.contents pid language ctype) = some c →
        c.body ≠ sanitized s body) →
      newRecords st (ContentManager.create_content_if_changed s st pid language ctype body).2 =
        [(ContentManager.create_content_if_changed s st pid language ctype body).1]) := by
  by_cases hc : ∃ c, latestContent (tupleContents st.contents pid language ctype) = some c ∧
      c.body = sanitized s body
  · obtain ⟨c, hlat, hb⟩ := hc
    have h1 := create_if_changed_noop s st pid language ctype body c hlat hb
    constructor
    · rw [h1]
      exact h1
    · intro hne
      exact absurd hb (hne c hlat)
  · push_neg at hc
    constructor
    · have hlat1 := latest_after_create s st pid language ctype body hwf hc
      have heq := create_if_changed_eq_prune s st pid language ctype body hc
      obtain ⟨h1, _, _, _, _⟩ :=
        create_and_prune_spec s st pid language ctype (sanitized s body) hwf
      have h2 := create_if_changed_noop s
        (ContentManager.create_content_if_changed s st pid language ctype body).2
        pid language ctype body
        (freshContent st pid language ctype (sanitized s body)) hlat1 rfl
      rw [h2]
      have h3 : (ContentManager.create_content_if_changed s st pid language ctype body).1 =
          freshContent st pid language ctype (sanitized s body) := by
        rw [heq]
        exact h1
      rw [← h3]
    · intro _
      have heq := create_if_changed_eq_prune s st pid language ctype body hc
      obtain ⟨h1, _, _, _, _⟩ :=
        create_and_prune_spec s st pid language ctype (sanitized s body) hwf
      have h3 : (ContentManager.create_content_if_changed s st pid language ctype body).1 =
          freshContent st pid language ctype (sanitized s body) := by
        rw [heq]
        exact h1
      rw [h3]
      exact newRecords_after_create s st pid language ctype body hwf hc

/-- Witness for C3 starting from the empty store: the repeated call is a
no-op and the pair of calls adds exactly one row. -/
theorem claim_C3_witness :
    ContentManager.create_content_if_changed S0
        (ContentManager.create_content_if_changed S0 ST1 1 "en" "body" "X").2
        1 "en" "body" "X" =
      ContentManager.create_content_if_changed S0 ST1 1 "en" "body" "X" ∧
    newRecords ST1 (ContentManager.create_content_if_changed S0 ST1 1 "en" "body" "X").2 =
      [(ContentManager.create_content_if_changed S0 ST1 1 "en" "body" "X").1] := by
  have h := claim_C3_idempotent S0 ST1 1 "en" "body" "X" (by decide)
  exact ⟨h.1, h.2 (fun c hc => Option.noConfusion hc)⟩

/-- C9: set_or_create_content overwrites the body of the existing latest
row in place when the tuple has rows, leaving the store size and the whole
revision list of the tuple otherwise unchanged, and creates exactly one
fresh row when the tuple is empty. -/
theorem claim_C9_set_or_create (s : Settings) (st : ContentStore) (pid : Nat)
    (language ctype body : String) (hwf : st.WF) :
    (∀ c rest, tupleContents st.contents pid language ctype = c :: rest →
      (ContentManager.set_or_create_content s st pid language ctype body).1 =
        { c with body := sanitized s body } ∧
      (ContentManager.set_or_create_content s st pid language ctype body).2.contents.length =
        st.contents.length ∧
      tupleContents
          (ContentManager.set_or_create_content s st pid language ctype body).2.contents
          pid language ctype = { c with body := sanitized s body } :: rest) ∧
    (tupleContents st.contents pid language ctype = [] →
      (ContentManager.set_or_create_content s st pid language ctype body).2.contents.length =
        st.contents.length + 1 ∧
      tupleContents
          (ContentManager.set_or_create_content s st pid language ctype body).2.contents
          pid language ctype = [freshContent st pid language ctype (sanitized s body)]) := by
  constructor
  · intro c rest htc
    obtain ⟨h1, h2, h3, _⟩ :=
      set_or_create_existing s st pid language ctype body c rest hwf htc
    exact ⟨h1, h2, h3⟩
  · intro htc
    obtain ⟨h1, h2⟩ := set_or_create_fresh s st pid language ctype body htc
    refine ⟨?_, h2⟩
    rw [h1]
    simp

/-- Witness for C9: overwriting on a three-revision store keeps three rows
and rewrites only the newest body, while writing to the empty store adds a
single row. -/
theorem claim_C9_witness :
    ((ContentManager.set_or_create_content S0 ST0 1 "en" "body" "W").2.contents.length =
        ST0.contents.length ∧
      tupleContents (ContentManager.set_or_create_content S0 ST0 1 "en" "body" "W").2.contents
          1 "en" "body" =
        [{ page := 1, language := "en", ctype := "body", creationDate := 2, body := "W" },
         { page := 1, language := "en", ctype := "body", creationDate := 1, body := "Y" },
         { page := 1, language := "en", ctype := "body", creationDate := 0, body := "Z" }]) ∧
    ((ContentManager.set_or_create_content S0 ST1 1 "en" "body" "W").2.contents.length =
        ST1.contents.length + 1 ∧
      tupleContents (ContentManager.set_or_create_content S0 ST1 1 "en" "body" "W").2.contents
          1 "en" "body" = [freshContent ST1 1 "en" "body" (sanitized S0 "W")]) := by
  have h1 := (claim_C9_set_or_create S0 ST0 1 "en" "body" "W" (by decide)).1
    { page := 1, language := "en", ctype := "body", creationDate := 2, body := "X" }
    [{ page := 1, language := "en", ctype := "body", creationDate := 1, body := "Y" },
     { page := 1, language := "en", ctype := "body", creationDate := 0, body := "Z" }]
    (by decide)
  have h2 := (claim_C9_set_or_create S0 ST1 1 "en" "body" "W" (by decide)).2 (by decide)
  exact ⟨⟨h1.2.1, h1.2.2⟩, h2⟩

/-- C4: with a nonzero revision depth limit, every call of
create_content_if_changed that actually creates keeps exactly the depth
most recent revisions of the tuple, in creation order newest first, and
deletes the remainder; consequently a run of calls with pairwise distinct
bodies on an initially empty tuple, more calls than the depth, leaves
exactly depth revisions. -/
theorem claim_C4_revision_depth :
    (∀ (s : Settings) (st : ContentStore) (pid : Nat) (language ctype body : String),
      st.WF → s.revisionDepth ≠ 0 →
      (∀ c, latestContent (tupleContents st.contents pid language ctype) = some c →
        c.body ≠ sanitized s body) →
      tupleContents
          (ContentManager.create_content_if_changed s st pid language ctype body).2.contents
          pid language ctype =
        (freshContent st pid language ctype (sanitized s body) ::
          tupleContents st.contents pid language ctype).take s.revisionDepth) ∧
    (∀ (s : Settings) (st : ContentStore) (pid : Nat) (language ctype : String)
        (bodies : List String),
      st.WF → s.revisionDepth ≠ 0 → s.sanitizeUserInput = false →
      tupleContents st.contents pid language ctype = [] →
      bodies.Pairwise (fun a b => a ≠ b) →
      s.revisionDepth < bodies.length →
      (tupleContents (applyBodies s pid language ctype st bodies).contents
          pid language ctype).length = s.revisionDepth) := by
  constructor
  · intro s st pid language ctype body hwf hK hne
    have heq := create_if_changed_eq_prune s st pid language ctype body hne
    obtain ⟨_, _, _, htc, _⟩ :=
      create_and_prune_spec s st pid language ctype (sanitized s body) hwf
    rw [heq, htc, if_neg hK]
  · intro s st pid language ctype bodies hwf hK hsan htc0 hdist hlt
    have hmap : bodies.map (sanitized s) = bodies := by
      conv_rhs => rw [← List.map_id bodies]
      exact List.map_congr_left (fun b _ => by simp [sanitized, hsan])
    have hlat0 : latestContent (tupleContents st.contents pid language ctype) = none := by
      rw [latestContent_none_iff]
      exact htc0
    have happly := applyBodies_length s pid language ctype hK bodies st hwf
      (by rw [htc0]; exact Nat.zero_le _)
      (by rw [hlat0, hmap]
          simpa using hdist.chain')
    rw [htc0] at happly
    simp only [List.length_nil, Nat.zero_add] at happly
    rw [happly]
    omega

/-- Witness for C4: a creating call on a one-revision store with depth one
keeps only the new row, and two calls with distinct bodies on the empty
store leave one revision. -/
theorem claim_C4_witness :
    tupleContents (ContentManager.create_content_if_changed S0 ST2 1 "en" "body" "new").2.contents
        1 "en" "body" =
      (freshContent ST2 1 "en" "body" (sanitized S0 "new") ::
        tupleContents ST2.contents 1 "en" "body").take S0.revisionDepth ∧
    (tupleContents (applyBodies S0 1 "en" "body" ST1 ["a", "b"]).contents 1 "en" "body").length =
      S0.revisionDepth := by
  constructor
  · refine claim_C4_revision_depth.1 S0 ST2 1 "en" "body" "new" (by decide) (by decide) ?_
    intro c hc
    have hl : latestContent (tupleContents ST2.contents 1 "en" "body") =
        some { page := 1, language := "en", ctype := "body", creationDate := 0, body := "old" } :=
      by decide
    rw [hl] at hc
    injection hc with h
    rw [← h]
    decide
  · exact claim_C4_revision_depth.2 S0 ST1 1 "en" "body" ["a", "b"] (by decide) (by decide)
      (by decide) (by decide) (by decide) (by decide)

/-- C6: for a frozen page get_content_object considers only rows with
creation date at most the freeze date and returns the latest such row,
failing exactly when no row of the tuple satisfies the bound; for an
unfrozen page no creation-date constraint is applied and it fails exactly
when the tuple is empty. -/
theorem claim_C6_freeze_date (st : ContentStore) (page : Page) (language ctype : String)
    (hwf : st.WF) :
    (∀ ft, page.freezeDate = some ft →
      ((ContentManager.get_content_object st page language ctype = none ↔
        ∀ d ∈ tupleContents st.contents page.id language ctype, ¬ d.creationDate ≤ ft) ∧
       (∀ c, ContentManager.get_content_object st page language ctype = some c →
        c ∈ tupleContents st.contents page.id language ctype ∧ c.creationDate ≤ ft ∧
        ∀ d ∈ tupleContents st.contents page.id language ctype,
          d.creationDate ≤ ft → d.creationDate ≤ c.creationDate))) ∧
    (page.freezeDate = none →
      ((ContentManager.get_content_object st page language ctype = none ↔
        tupleContents st.contents page.id language ctype = []) ∧
       (∀ c, ContentManager.get_content_object st page language ctype = some c →
        c ∈ tupleContents st.contents page.id language ctype ∧
        ∀ d ∈ tupleContents st.contents page.id language ctype,
          d.creationDate ≤ c.creationDate))) := by
  have hpwt := tupleContents_pairwise st.contents page.id language ctype hwf.1
  constructor
  · intro ft hft
    have hred : ContentManager.get_content_object st page language ctype =
        latestContent ((tupleContents st.contents page.id language ctype).filter
          (fun c => c.creationDate ≤ ft)) := by
      simp only [ContentManager.get_content_object, hft]
    have hpwf : ((tupleContents st.contents page.id language ctype).filter
        (fun c => c.creationDate ≤ ft)).Pairwise
        (fun a b => b.creationDate < a.creationDate) := hpwt.filter _
    constructor
    · rw [hred, latestContent_none_iff, List.filter_eq_nil_iff]
      simp
    · intro c hc
      rw [hred] at hc
      obtain ⟨hmem, hmax⟩ := latestContent_mem_max _ hpwf c hc
      have hm := List.mem_filter.mp hmem
      refine ⟨hm.1, by simpa using hm.2, ?_⟩
      intro d hd hdle
      exact hmax d (List.mem_filter.mpr ⟨hd, by simpa using hdle⟩)
  · intro hft
    have hred : ContentManager.get_content_object st page language ctype =
        latestContent (tupleContents st.contents page.id language ctype) := by
      simp only [ContentManager.get_content_object, hft]
    constructor
    · rw [hred, latestContent_none_iff]
    · intro c hc
      rw [hred] at hc
      exact latestContent_mem_max _ hpwt c hc

/-- Witness for C6: on a page frozen at time one over a store with
revisions at times zero, one and two, the row of time one is returned and
satisfies the bound. -/
theorem claim_C6_witness :
    ({ page := 1, language := "en", ctype := "body", creationDate := 1, body := "Y" } : Content)
        ∈ tupleContents ST0.contents PF.id "en" "body" ∧
    ({ page := 1, language := "en", ctype := "body", creationDate := 1, body := "Y" }
        : Content).creationDate ≤ 1 := by
  have h := (claim_C6_freeze_date ST0 PF "en" "body" (by decide)).1 1 rfl
  have h2 := h.2
    { page := 1, language := "en", ctype := "body", creationDate := 1, body := "Y" } (by decide)
  exact ⟨h2.1, h2.2.1⟩

theorem lookupLang_some_mem (dict : ContentManager.ContentDict) (l b : String)
    (h : ContentManager.lookupLang dict l = some b) : ∃ p ∈ dict, p.1 = l ∧ p.2 = b := by
  unfold ContentManager.lookupLang at h
  cases hf : dict.find? (fun p => p.1 == l) with
  | none =>
    rw [hf] at h
    cases h
  | some a =>
    rw [hf] at h
    injection h with hb
    have hmem := List.mem_of_find?_eq_some hf
    have hkey := List.find?_some hf
    exact ⟨a, hmem, by simpa using hkey, hb⟩

theorem get_content_miss (s : Settings) (st : ContentStore) (page : Page)
    (language ctype : String) (fb : Bool) (hL : language ≠ "") :
    ContentManager.get_content s st page none none language ctype fb =
      (match ContentManager.lookupLang (ContentManager.build_content_dict s st page ctype)
          language with
       | some b => if b ≠ "" then s.filterLink b page.id language ctype
           else if fb then ContentManager.fallback_body s
               (ContentManager.build_content_dict s st page ctype) page.id ctype s.languages
             else ""
       | none => if fb then ContentManager.fallback_body s
               (ContentManager.build_content_dict s st page ctype) page.id ctype s.languages
             else "") := by
  simp only [ContentManager.get_content, hL, if_neg, ite_false]

/-- C5: on a cache miss get_content returns the latest body recorded in the
per-page dictionary for the requested language when that body is
non-empty, run through the link filter; when that body is empty or absent
it returns the first non-empty body in the configured language order when
fallback is allowed, the empty string when fallback is disabled, and the
empty string when every configured language is empty. -/
theorem claim_C5_get_body (s : Settings) (st : ContentStore) (page : Page)
    (language ctype : String) (hL : language ≠ "") :
    (∀ b fb, ContentManager.lookupLang
        (ContentManager.build_content_dict s st page ctype) language = some b → b ≠ "" →
      ContentManager.get_content s st page none none language ctype fb =
        s.filterLink b page.id language ctype) ∧
    ((ContentManager.lookupLang
        (ContentManager.build_content_dict s st page ctype) language).getD "" = "" →
      (∀ l, s.languages.find? (fun l2 => !((ContentManager.lookupLang
            (ContentManager.build_content_dict s st page ctype) l2).getD "" == "")) = some l →
        ContentManager.get_content s st page none none language ctype true =
          s.filterLink ((ContentManager.lookupLang
              (ContentManager.build_content_dict s st page ctype) l).getD "")
            page.id l ctype) ∧
      ContentManager.get_content s st page none none language ctype false = "") ∧
    ((∀ l ∈ s.languages, ContentManager.lookupLang
        (ContentManager.build_content_dict s st page ctype) l = some "") →
      ∀ fb, ContentManager.get_content s st page none none language ctype fb = "") := by
  refine ⟨?_, ?_, ?_⟩
  · intro b fb hlook hb
    rw [get_content_miss s st page language ctype fb hL, hlook]
    simp [hb]
  · intro hempty
    constructor
    · intro l hfind
      rw [get_content_miss s st page language ctype true hL]
      have hfb := fallback_body_of_find s (ContentManager.build_content_dict s st page ctype)
        page.id ctype s.languages l hfind
      cases hlook : ContentManager.lookupLang
          (ContentManager.build_content_dict s st page ctype) language with
      | none => exact hfb
      | some b =>
        have hbe : b = "" := by
          rw [hlook] at hempty
          simpa using hempty
        rw [hbe]
        simpa using hfb
    · rw [get_content_miss s st page language ctype false hL]
      cases hlook : ContentManager.lookupLang
          (ContentManager.build_content_dict s st page ctype) language with
      | none => rfl
      | some b =>
        have hbe : b = "" := by
          rw [hlook] at hempty
          simpa using hempty
        rw [hbe]
        simp
  · intro hall fb
    have hempty2 : ∀ l, (ContentManager.lookupLang
        (ContentManager.build_content_dict s st page ctype) l).getD "" = "" := by
      intro l
      cases hx : ContentManager.lookupLang
          (ContentManager.build_content_dict s st page ctype) l with
      | none => rfl
      | some b =>
        obtain ⟨p, hp, hp1, hp2⟩ := lookupLang_some_mem _ l b hx
        obtain ⟨lang, hlang, heq⟩ := List.mem_map.mp hp
        have hl : lang = l := by
          rw [← hp1, ← heq]
        have hsome := hall lang hlang
        rw [hl, hx] at hsome
        simp only [Option.some.injEq] at hsome
        simp [hsome]
    have hfb0 := fallback_body_of_all_empty s
      (ContentManager.build_content_dict s st page ctype) page.id ctype s.languages
      (fun l _ => hempty2 l)
    rw [get_content_miss s st page language ctype fb hL]
    cases hlook : ContentManager.lookupLang
        (ContentManager.build_content_dict s st page ctype) language with
    | none =>
      cases fb
      · rfl
      · simpa using hfb0
    | some b =>
      have hbe : b = "" := by
        have := hempty2 language
        rw [hlook] at this
        simpa using this
      rw [hbe]
      cases fb
      · simp
      · simpa using hfb0

/-- Witness for C5: the english body is empty but the french one is not,
so the fallback read returns the french body and the non-fallback read
returns the empty string. -/
theorem claim_C5_witness :
    ContentManager.get_content S0 STC P1page none none "en" "body" true = "bonjour" ∧
    ContentManager.get_content S0 STC P1page none none "en" "body" false = "" := by
  have h := (claim_C5_get_body S0 STC P1page "en" "body" (by decide)).2.1 (by decide)
  constructor
  · exact (h.1 "fr" (by decide)).trans (by decide)
  · exact h.2

/-- C1: when the slug query leaves exactly one candidate after site scoping
and optional draft exclusion, from_path returns that page with strict-URL
mode off, and with strict-URL mode on returns it exactly when its complete
slug for the language equals the stripped input path, else none. -/
theorem claim_C1_single_candidate (s : Settings) (pages : List Page) (st : ContentStore)
    (path lang : String) (ed : Bool) (p : Page)
    (h0 : PageManager.strip_path path ≠ "")
    (h1 : PageManager.candidates s pages st (PageManager.strip_path path) ed = [p]) :
    (s.useStrictUrl = false →
      PageManager.from_path s pages st path lang ed = some p) ∧
    (s.useStrictUrl = true →
      PageManager.from_path s pages st path lang ed =
        (if s.completeSlug p.id lang = PageManager.strip_path path then some p
         else none)) := by
  have hred : PageManager.from_path s pages st path lang ed =
      (if s.useStrictUrl && !(s.completeSlug p.id lang == PageManager.strip_path path)
       then none else some p) := by
    simp only [PageManager.from_path]
    rw [if_neg h0, h1]
  constructor
  · intro hs
    rw [hred, hs]
    simp
  · intro hs
    rw [hred, hs]
    by_cases heq : s.completeSlug p.id lang = PageManager.strip_path path
    · simp [heq]
    · simp [heq]

/-- Witness for C1: a unique candidate is accepted in strict mode because
its complete slug matches the path, and accepted directly with strict mode
off. -/
theorem claim_C1_witness :
    PageManager.from_path S1 PG1 STP1 "/a/b/" "en" true = some P1page ∧
    PageManager.from_path S0 PG1 STP1 "/a/b/" "en" true = some P1page := by
  constructor
  · exact ((claim_C1_single_candidate S1 PG1 STP1 "/a/b/" "en" true P1page
      (by decide) (by decide)).2 (by decide)).trans (by decide)
  · exact (claim_C1_single_candidate S0 PG1 STP1 "/a/b/" "en" true P1page
      (by decide) (by decide)).1 (by decide)

/-- C2: with two or more candidates from_path scans them in list order and
returns the first whose complete slug equals the stripped path, none when
no candidate matches, and none as well when the slug query returns no
candidate at all; no exception is involved. -/
theorem claim_C2_multiple_candidates (s : Settings) (pages : List Page) (st : ContentStore)
    (path lang : String) (ed : Bool)
    (h0 : PageManager.strip_path path ≠ "") :
    (∀ p q rest, PageManager.candidates s pages st (PageManager.strip_path path) ed =
        p :: q :: rest →
      PageManager.from_path s pages st path lang ed =
        (p :: q :: rest).find? (fun r =>
          s.completeSlug r.id lang == PageManager.strip_path path)) ∧
    (∀ p q rest, PageManager.candidates s pages st (PageManager.strip_path path) ed =
        p :: q :: rest →
      (∀ r ∈ p :: q :: rest, s.completeSlug r.id lang ≠ PageManager.strip_path path) →
      PageManager.from_path s pages st path lang ed = none) ∧
    (PageManager.candidates s pages st (PageManager.strip_path path) ed = [] →
      PageManager.from_path s pages st path lang ed = none) := by
  have hfind : ∀ p q rest, PageManager.candidates s pages st (PageManager.strip_path path) ed =
      p :: q :: rest →
      PageManager.from_path s pages st path lang ed =
        (p :: q :: rest).find? (fun r =>
          s.completeSlug r.id lang == PageManager.strip_path path) := by
    intro p q rest h1
    simp only [PageManager.from_path]
    rw [if_neg h0, h1]
  refine ⟨hfind, ?_, ?_⟩
  · intro p q rest h1 hnone
    rw [hfind p q rest h1, List.find?_eq_none]
    intro r hr
    simp only [Bool.not_eq_true, beq_eq_false_iff_ne, ne_eq]
    exact hnone r hr
  · intro h1
    simp only [PageManager.from_path]
    rw [if_neg h0, h1]

/-- Witness for C2: two pages share the slug b; the path of page two picks
page two as first full-path match, and an unknown slug yields none. -/
theorem claim_C2_witness :
    PageManager.from_path S1 PG2 STP "/c/b/" "en" true = some P2page ∧
    PageManager.from_path S1 PG2 STP "/zzz" "en" true = none := by
  constructor
  · exact ((claim_C2_multiple_candidates S1 PG2 STP "/c/b/" "en" true (by decide)).1
      P1page P2page [] (by decide)).trans (by decide)
  · exact (claim_C2_multiple_candidates S1 PG2 STP "/zzz" "en" true (by decide)).2.2
      (by decide)

/-- C8: when the input path strips to the empty string, from_path returns
the first root page of the current site scope when one exists and none
when no root page exists. -/
theorem claim_C8_empty_path (s : Settings) (pages : List Page) (st : ContentStore)
    (path lang : String) (ed : Bool)
    (h0 : PageManager.strip_path path = "") :
    PageManager.from_path s pages st path lang ed = (PageManager.root s pages).head? ∧
    (PageManager.root s pages = [] →
      PageManager.from_path s pages st path lang ed = none) ∧
    (∀ p rest, PageManager.root s pages = p :: rest →
      PageManager.from_path s pages st path lang ed = some p) := by
  have hred : PageManager.from_path s pages st path lang ed =
      (PageManager.root s pages).head? := by
    simp only [PageManager.from_path]
    rw [if_pos h0]
  refine ⟨hred, ?_, ?_⟩
  · intro h1
    rw [hred, h1]
    rfl
  · intro p rest h1
    rw [hred, h1]
    rfl

/-- Witness for C8: the slash path resolves to the single root page, and to
none when the page table is empty. -/
theorem claim_C8_witness :
    PageManager.from_path S0 PG1 ST1 "/" "en" true = some P1page ∧
    PageManager.from_path S0 [] ST1 "/" "en" true = none := by
  constructor
  · exact (claim_C8_empty_path S0 PG1 ST1 "/" "en" true (by decide)).2.2 P1page []
      (by decide)
  · exact (claim_C8_empty_path S0 [] ST1 "/" "en" true (by decide)).2.1 (by decide)

/-- C7: with a query string present the alias lookup first tries the
normalized path with the query string appended after a question mark and
returns that alias when found; only on failure, or when there is no query
string, does it look up the normalized path alone, and it returns none
when both lookups fail. -/
theorem claim_C7_alias_priority (s : Settings) (aliases : List PageAlias)
    (path query : String) :
    (query ≠ "" → ∀ a, PageAliasManager.alias_get aliases
        (s.normalizeUrl path ++ "?" ++ query) = some a →
      PageAliasManager.from_path s aliases path query = some a) ∧
    (query ≠ "" → PageAliasManager.alias_get aliases
        (s.normalizeUrl path ++ "?" ++ query) = none →
      PageAliasManager.from_path s aliases path query =
        PageAliasManager.alias_get aliases (s.normalizeUrl path)) ∧
    (query = "" → PageAliasManager.from_path s aliases path query =
      PageAliasManager.alias_get aliases (s.normalizeUrl path)) := by
  refine ⟨?_, ?_, ?_⟩
  · intro hq a ha
    simp only [PageAliasManager.from_path]
    rw [if_pos hq, ha]
  · intro hq hnone
    simp only [PageAliasManager.from_path]
    rw [if_pos hq, hnone]
    cases h2 : PageAliasManager.alias_get aliases (s.normalizeUrl path) with
    | none => rfl
    | some a => rfl
  · intro hq
    simp only [PageAliasManager.from_path]
    rw [if_neg (by rw [hq]; exact fun h => h rfl)]
    cases h2 : PageAliasManager.alias_get aliases (s.normalizeUrl path) with
    | none => rfl
    | some a => rfl

/-- Witness for C7: the query-qualified alias wins when present, the plain
alias is used when the qualified lookup fails, and the plain alias is used
when no query string is given. -/
theorem claim_C7_witness :
    PageAliasManager.from_path S0 AL "foo" "x=1" = some { url := "foo?x=1", pageId := 10 } ∧
    PageAliasManager.from_path S0 AL "foo" "y=2" = some { url := "foo", pageId := 20 } ∧
    PageAliasManager.from_path S0 AL "foo" "" = some { url := "foo", pageId := 20 } := by
  refine ⟨?_, ?_, ?_⟩
  · exact (claim_C7_alias_priority S0 AL "foo" "x=1").1 (by decide)
      { url := "foo?x=1", pageId := 10 } (by decide)
  · exact ((claim_C7_alias_priority S0 AL "foo" "y=2").2.1 (by decide) (by decide)).trans
      (by decide)
  · exact ((claim_C7_alias_priority S0 AL "foo" "").2.2 (by decide)).trans (by decide)
